import Mathlib

/-!
Verification of the Chomping Glass solver core (`crates/solver-core/src/lib.rs`).

The board is a fixed 5×8 grid; a `BoardState` records, per column, the highest
eaten row (`-1` = untouched column).  A move `(row, col)` eats the chosen cell
and every cell above it and to its left.  The poison square `(ROWS-1, COLS-1)`
is never a legal move.  `Solver.evaluate` is the memoized backward-induction
evaluator; here it is embedded twice: `Solver.evaluate` is the pure
denotation (well-founded recursion on the number of uneaten cells, the cache
erased — memoization of a pure function does not change results), and
`Solver.evalMemo` threads the cache explicitly, mirroring the Rust
`Solver::evaluate` line by line; `evalMemo_spec` links the two.

All definitions are translated from the Rust source.  The Rust heights are
`i8` with the documented invariant `-1 ≤ h ≤ ROWS-1`; they are embedded as
`Int`.  The embedding is purely functional, so `apply_move` allocating a new
state and never mutating its input holds by construction.
-/

/-- Number of rows on the board (`ROWS` in the source). -/
def ROWS : Nat := 5

/-- Number of columns on the board (`COLS` in the source). -/
def COLS : Nat := 8

/-- A move in zero-indexed board coordinates (`struct Move`). -/
structure Move where
  row : Nat
  col : Nat
deriving DecidableEq

/-- The poison square `(ROWS-1, COLS-1)` (`POISON` in the source). -/
def POISON : Move := ⟨ROWS - 1, COLS - 1⟩

/-- `Move::to_one_indexed`: shift both coordinates up by one for display. -/
def Move.to_one_indexed (m : Move) : Nat × Nat := (m.row + 1, m.col + 1)

/-- Board state as column heights (`struct BoardState`); `heights[c] = h`
means rows `0..=h` of column `c` are eaten, `-1` means untouched.  The Rust
type is `[i8; COLS]`; well-formedness (`BoardState.WF`) records the length
and the `-1 ≤ h ≤ ROWS-1` range invariant. -/
structure BoardState where
  heights : List Int
deriving DecidableEq

/-- Height of column `c` (the Rust array access `self.heights[col]`). -/
def BoardState.heightAt (s : BoardState) (c : Nat) : Int :=
  s.heights.getD c (-1)

/-- Fresh board, all columns untouched (`BoardState::new`). -/
def BoardState.new : BoardState :=
  ⟨List.replicate COLS (-1)⟩

/-- `BoardState::apply_move`: eat the cell at `mv` and every cell above it
and to its left — every column `c ≤ mv.col` is raised to
`max (heights[c]) mv.row`; columns beyond `mv.col` are unchanged.  The Rust
loop writes `target_row` only when it exceeds the stored height, which is
exactly `max`. -/
def BoardState.apply_move (s : BoardState) (mv : Move) : BoardState :=
  ⟨(List.range COLS).map fun c =>
    if c ≤ mv.col then max (s.heightAt c) (mv.row : Int) else s.heightAt c⟩

/-- `BoardState::legal_moves`: for each column `c` (ascending), every row
`r` with `heights[c] < r ≤ ROWS-1` (ascending), skipping the poison square.
The Rust inner loop runs over the `i8` range `heights[c]+1 .. ROWS`; under
the data-model invariant `heights[c] ≥ -1` that range is exactly the natural
rows `r < ROWS` with `heights[c] < r`. -/
def BoardState.legal_moves (s : BoardState) : List Move :=
  (List.range COLS).flatMap fun c =>
    (((List.range ROWS).filter fun (r : Nat) => s.heightAt c < (r : Int)).map
      fun r => Move.mk r c).filter fun mv => mv ≠ POISON

/-- `BoardState::is_terminal`: no legal moves remain. -/
def BoardState.is_terminal (s : BoardState) : Bool :=
  s.legal_moves.isEmpty

/-- Number of uneaten cells (the termination measure for the evaluator). -/
def BoardState.remaining (s : BoardState) : Nat :=
  ∑ c ∈ Finset.range COLS, (ROWS - (s.heightAt c + 1).toNat)

/-- Well-formedness: the documented representation invariant of
`BoardState` (array length `COLS`, every height in `[-1, ROWS-1]`). -/
def BoardState.WF (s : BoardState) : Prop :=
  s.heights.length = COLS ∧ ∀ h ∈ s.heights, -1 ≤ h ∧ h ≤ (ROWS : Int) - 1

instance (s : BoardState) : Decidable s.WF := by
  unfold BoardState.WF; infer_instance

/-- The staircase invariant: heights are non-increasing left to right. -/
def BoardState.NonIncr (s : BoardState) : Prop :=
  ∀ j < COLS, ∀ i < j, s.heightAt j ≤ s.heightAt i

instance (s : BoardState) : Decidable s.NonIncr := by
  unfold BoardState.NonIncr; infer_instance

/-- States reachable from the fresh board by chains of legal moves. -/
inductive Reachable : BoardState → Prop where
  | init : Reachable BoardState.new
  | step {s : BoardState} {m : Move} : Reachable s → m ∈ s.legal_moves →
      Reachable (s.apply_move m)

/-- Result of evaluating a state (`struct Evaluation`). -/
structure Evaluation where
  winning : Bool
  winning_moves : List Move
deriving DecidableEq

/-! ### Basic lemmas about the board model -/

theorem mem_legal_moves {s : BoardState} {m : Move} :
    m ∈ s.legal_moves ↔
      m.col < COLS ∧ m.row < ROWS ∧ s.heightAt m.col < (m.row : Int) ∧
        m ≠ POISON := by
  cases m with
  | mk r c =>
    simp only [BoardState.legal_moves, List.mem_flatMap, List.mem_filter,
      List.mem_map, List.mem_range, decide_eq_true_eq]
    constructor
    · rintro ⟨c', hc', ⟨⟨r', ⟨hr', hlt⟩, heq⟩, hp⟩⟩
      injection heq with h1 h2
      subst h1; subst h2
      exact ⟨hc', hr', hlt, by simpa using hp⟩
    · rintro ⟨hc, hr, hlt, hp⟩
      exact ⟨c, hc, ⟨⟨r, ⟨hr, hlt⟩, rfl⟩, by simpa using hp⟩⟩

theorem heightAt_apply_move (s : BoardState) (mv : Move) {c : Nat}
    (hc : c < COLS) :
    (s.apply_move mv).heightAt c =
      if c ≤ mv.col then max (s.heightAt c) (mv.row : Int)
      else s.heightAt c := by
  unfold BoardState.apply_move BoardState.heightAt
  rw [List.getD_eq_getElem _ _ (by simpa using hc)]
  simp [BoardState.heightAt]

theorem heightAt_apply_move_le (s : BoardState) (mv : Move) {c : Nat}
    (hc : c < COLS) : s.heightAt c ≤ (s.apply_move mv).heightAt c := by
  rw [heightAt_apply_move s mv hc]
  split <;> simp

theorem remaining_apply_move_lt {s : BoardState} {m : Move}
    (hm : m ∈ s.legal_moves) :
    (s.apply_move m).remaining < s.remaining := by
  obtain ⟨hc, hr, hlt, -⟩ := mem_legal_moves.mp hm
  unfold BoardState.remaining
  apply Finset.sum_lt_sum
  · intro c hcr
    have hcle := heightAt_apply_move_le s m (List.mem_range.mp (by simpa using hcr))
    have : (s.heightAt c + 1).toNat ≤ ((s.apply_move m).heightAt c + 1).toNat := by
      apply Int.toNat_le_toNat; omega
    omega
  · refine ⟨m.col, Finset.mem_range.mpr hc, ?_⟩
    rw [heightAt_apply_move s m hc, if_pos (Nat.le_refl _)]
    have hmax : max (s.heightAt m.col) (m.row : Int) = (m.row : Int) :=
      max_eq_right (le_of_lt hlt)
    rw [hmax]
    have h1 : ((m.row : Int) + 1).toNat = m.row + 1 := by omega
    have h2 : (s.heightAt m.col + 1).toNat < m.row + 1 := by omega
    omega

theorem WF_apply_move {s : BoardState} {m : Move} (hs : s.WF)
    (hm : m ∈ s.legal_moves) : (s.apply_move m).WF := by
  obtain ⟨hc, hr, hlt, -⟩ := mem_legal_moves.mp hm
  constructor
  · simp [BoardState.apply_move]
  · intro h hh
    simp only [BoardState.apply_move, List.mem_map, List.mem_range] at hh
    obtain ⟨c, hcC, rfl⟩ := hh
    have hbound : -1 ≤ s.heightAt c ∧ s.heightAt c ≤ (ROWS : Int) - 1 := by
      have hlen : c < s.heights.length := hs.1 ▸ hcC
      have hx : s.heightAt c = s.heights[c] :=
        List.getD_eq_getElem s.heights (-1) hlen
      rw [hx]
      exact hs.2 s.heights[c] (List.getElem_mem hlen)
    split
    · constructor
      · exact le_trans hbound.1 (le_max_left _ _)
      · apply max_le hbound.2; omega
    · exact hbound

theorem WF_new : BoardState.new.WF := by decide

theorem reachable_WF {s : BoardState} (h : Reachable s) : s.WF := by
  induction h with
  | init => exact WF_new
  | step _ hm ih => exact WF_apply_move ih hm

theorem remaining_le (s : BoardState) :
    s.remaining ≤ ROWS * COLS := by
  unfold BoardState.remaining
  calc ∑ c ∈ Finset.range COLS, (ROWS - (s.heightAt c + 1).toNat)
      ≤ ∑ _c ∈ Finset.range COLS, ROWS :=
        Finset.sum_le_sum fun c _ => Nat.sub_le _ _
    _ = COLS * ROWS := by simp [Finset.sum_const, Nat.mul_comm]
    _ = ROWS * COLS := Nat.mul_comm _ _

theorem legal_moves_of_remaining_zero {s : BoardState}
    (h : s.remaining = 0) : s.legal_moves = [] := by
  rcases hl : s.legal_moves with _ | ⟨m, ms⟩
  · rfl
  · exfalso
    have hm : m ∈ s.legal_moves := by rw [hl]; exact List.mem_cons_self _ _
    obtain ⟨hc, hr, hlt, -⟩ := mem_legal_moves.mp hm
    unfold BoardState.remaining at h
    rw [Finset.sum_eq_zero_iff] at h
    have := h m.col (Finset.mem_range.mpr hc)
    omega

/-! ### The pure evaluator -/

theorem attach_filter_map {α : Type _} (l : List α) (p : α → Bool) :
    ((l.attach.filter fun x => p x.1).map Subtype.val) = l.filter p := by
  conv_rhs => rw [← List.attach_map_subtype_val l]
  rw [List.filter_map]
  rfl

/-- Denotation of `Solver::evaluate` (lines 142–171 of the source) with the
cache erased: if there is no legal move the mover loses; otherwise collect,
in generation order, every move whose successor evaluates to a loss for the
opponent, and win exactly when that collection is non-empty.  The memoizing
cache of the Rust code only stores results of this same recursion, so it
does not change the returned value (`evalMemo_spec` below makes the cached
version explicit and proves it equal). -/
def Solver.evaluate (s : BoardState) : Evaluation :=
  if s.legal_moves.isEmpty then ⟨false, []⟩
  else
    let wm := (s.legal_moves.attach.filter fun m =>
      !(Solver.evaluate (s.apply_move m.1)).winning).map Subtype.val
    ⟨!wm.isEmpty, wm⟩
termination_by s.remaining
decreasing_by exact remaining_apply_move_lt m.2

theorem evaluate_eq (s : BoardState) :
    Solver.evaluate s =
      ⟨!(s.legal_moves.filter fun m =>
          !(Solver.evaluate (s.apply_move m)).winning).isEmpty,
        s.legal_moves.filter fun m =>
          !(Solver.evaluate (s.apply_move m)).winning⟩ := by
  rw [Solver.evaluate]
  by_cases h : s.legal_moves.isEmpty
  · rw [if_pos h, List.isEmpty_iff.mp h]
    rfl
  · rw [if_neg h]
    have := attach_filter_map s.legal_moves
      (fun m => !(Solver.evaluate (s.apply_move m)).winning)
    simp only [this]

theorem evaluate_terminal {s : BoardState} (h : s.legal_moves = []) :
    Solver.evaluate s = ⟨false, []⟩ := by
  rw [evaluate_eq s, h]
  rfl

theorem evaluate_winning_moves (s : BoardState) :
    (Solver.evaluate s).winning_moves =
      s.legal_moves.filter fun m =>
        !(Solver.evaluate (s.apply_move m)).winning := by
  rw [evaluate_eq s]

theorem evaluate_winning (s : BoardState) :
    (Solver.evaluate s).winning =
      !(Solver.evaluate s).winning_moves.isEmpty := by
  conv_lhs => rw [evaluate_eq s]
  rw [evaluate_winning_moves s]

theorem evaluate_winning_iff (s : BoardState) :
    (Solver.evaluate s).winning = true ↔
      ∃ m ∈ s.legal_moves,
        (Solver.evaluate (s.apply_move m)).winning = false := by
  rw [evaluate_winning s, evaluate_winning_moves s]
  simp [List.isEmpty_iff, List.filter_eq_nil_iff, not_forall]

/-! ### A kernel-computable cache

The Rust `Solver` memoizes `evaluate` in a `HashMap<BoardState, Evaluation>`.
The embedding uses a binary trie keyed by a fixed-width bit encoding of the
height sequence; on well-formed states the key is injective, so trie lookup
behaves exactly like the Rust map keyed on structural state equality. -/

inductive BTrie where
  | leaf : BTrie
  | node : Option Evaluation → BTrie → BTrie → BTrie

def BTrie.find : BTrie → List Bool → Option Evaluation
  | .leaf, _ => none
  | .node v _ _, [] => v
  | .node _ l r, b :: bs => if b then r.find bs else l.find bs

def BTrie.insert : BTrie → List Bool → Evaluation → BTrie
  | .leaf, [], v => .node (some v) .leaf .leaf
  | .node _ l r, [], v => .node (some v) l r
  | .leaf, b :: bs, v =>
      if b then .node none .leaf (BTrie.insert .leaf bs v)
      else .node none (BTrie.insert .leaf bs v) .leaf
  | .node w l r, b :: bs, v =>
      if b then .node w l (r.insert bs v) else .node w (l.insert bs v) r

theorem BTrie.find_insert (t : BTrie) (k k' : List Bool) (v : Evaluation) :
    (t.insert k v).find k' = if k' = k then some v else t.find k' := by
  induction k generalizing t k' with
  | nil =>
    cases t with
    | leaf =>
      cases k' with
      | nil => simp [BTrie.insert, BTrie.find]
      | cons b' bs' => cases b' <;> simp [BTrie.insert, BTrie.find]
    | node w l r =>
      cases k' with
      | nil => simp [BTrie.insert, BTrie.find]
      | cons b' bs' => cases b' <;> simp [BTrie.insert, BTrie.find]
  | cons b bs ih =>
    cases t with
    | leaf =>
      cases k' with
      | nil => cases b <;> simp [BTrie.insert, BTrie.find]
      | cons b' bs' =>
        cases b <;> cases b' <;> simp [BTrie.insert, BTrie.find, ih]
    | node w l r =>
      cases k' with
      | nil => cases b <;> simp [BTrie.insert, BTrie.find]
      | cons b' bs' =>
        cases b <;> cases b' <;> simp [BTrie.insert, BTrie.find, ih]

/-- Base-6 value of a little-endian digit list. -/
def encNat : List Nat → Nat
  | [] => 0
  | d :: t => d + 6 * encNat t

/-- Numeric encoding of a state: base-6 digits `heights[c] + 1 ∈ [0, 5]`. -/
def encode (s : BoardState) : Nat :=
  encNat (s.heights.map fun h => (h + 1).toNat)

/-- Little-endian bits of `n`, width `w`. -/
def toBitsW : Nat → Nat → List Bool
  | 0, _ => []
  | w + 1, n => (n % 2 == 1) :: toBitsW w (n / 2)

/-- Cache key of a state: 24 bits of its base-6 encoding (`6^8 < 2^24`). -/
def stateKey (s : BoardState) : List Bool := toBitsW 24 (encode s)

theorem toBitsW_inj (w : Nat) : ∀ n m, n < 2 ^ w → m < 2 ^ w →
    toBitsW w n = toBitsW w m → n = m := by
  induction w with
  | zero => intro n m hn hm _; simp [Nat.pow_zero] at hn hm; omega
  | succ w ih =>
    intro n m hn hm h
    have hp : 2 ^ (w + 1) = 2 * 2 ^ w := by rw [Nat.pow_succ]; ring
    simp only [toBitsW, List.cons.injEq] at h
    have h2 : n / 2 = m / 2 := ih _ _ (by omega) (by omega) h.2
    have h1 : n % 2 = m % 2 := by
      have e1 := h.1
      rcases Nat.mod_two_eq_zero_or_one n with hn2 | hn2 <;>
        rcases Nat.mod_two_eq_zero_or_one m with hm2 | hm2 <;>
        rw [hn2, hm2] at e1 <;> simp_all
    omega

theorem encNat_inj : ∀ l1 l2 : List Nat, l1.length = l2.length →
    (∀ d ∈ l1, d < 6) → (∀ d ∈ l2, d < 6) →
    encNat l1 = encNat l2 → l1 = l2 := by
  intro l1
  induction l1 with
  | nil => intro l2 hlen _ _ _; cases l2 <;> simp_all
  | cons d t ih =>
    intro l2 hlen h1 h2 he
    cases l2 with
    | nil => simp at hlen
    | cons d' t' =>
      have hd : d < 6 := h1 d (List.mem_cons_self _ _)
      have hd' : d' < 6 := h2 d' (List.mem_cons_self _ _)
      simp only [encNat] at he
      have hdd : d = d' := by omega
      have het : encNat t = encNat t' := by omega
      have hlt : t.length = t'.length := by simpa using hlen
      rw [hdd, ih t' hlt (fun x hx => h1 x (List.mem_cons_of_mem _ hx))
        (fun x hx => h2 x (List.mem_cons_of_mem _ hx)) het]

theorem encNat_lt : ∀ l : List Nat, (∀ d ∈ l, d < 6) →
    encNat l < 6 ^ l.length := by
  intro l
  induction l with
  | nil => intro _; simp [encNat]
  | cons d t ih =>
    intro h
    have hd : d < 6 := h d (List.mem_cons_self _ _)
    have ht := ih fun x hx => h x (List.mem_cons_of_mem _ hx)
    have hp : 6 ^ (d :: t).length = 6 * 6 ^ t.length := by
      simp [List.length_cons, Nat.pow_succ]; ring
    simp only [encNat]
    omega

theorem map_toNat_inj : ∀ l1 l2 : List Int, (∀ x ∈ l1, -1 ≤ x) →
    (∀ x ∈ l2, -1 ≤ x) →
    l1.map (fun x => (x + 1).toNat) = l2.map (fun x => (x + 1).toNat) →
    l1 = l2 := by
  intro l1
  induction l1 with
  | nil => intro l2 _ _ h; cases l2 <;> simp_all
  | cons a t ih =>
    intro l2 h1 h2 h
    cases l2 with
    | nil => simp at h
    | cons b t' =>
      simp only [List.map_cons, List.cons.injEq] at h
      have ha : -1 ≤ a := h1 a (List.mem_cons_self _ _)
      have hb : -1 ≤ b := h2 b (List.mem_cons_self _ _)
      have hab : a = b := by omega
      rw [hab, ih t' (fun x hx => h1 x (List.mem_cons_of_mem _ hx))
        (fun x hx => h2 x (List.mem_cons_of_mem _ hx)) h.2]

theorem digits_lt {s : BoardState} (hs : s.WF) :
    ∀ d ∈ s.heights.map fun h => (h + 1).toNat, d < 6 := by
  intro d hd
  simp only [List.mem_map] at hd
  obtain ⟨x, hx, rfl⟩ := hd
  have := hs.2 x hx
  have hR : (ROWS : Int) = 5 := by decide
  omega

theorem encode_lt {s : BoardState} (hs : s.WF) : encode s < 2 ^ 24 := by
  unfold encode
  have h1 := encNat_lt _ (digits_lt hs)
  rw [List.length_map, hs.1] at h1
  have : (6 : Nat) ^ COLS < 2 ^ 24 := by decide
  omega

theorem stateKey_inj {s s' : BoardState} (hs : s.WF) (hs' : s'.WF)
    (h : stateKey s = stateKey s') : s = s' := by
  have henc : encode s = encode s' :=
    toBitsW_inj 24 _ _ (encode_lt hs) (encode_lt hs') h
  unfold encode at henc
  have hlen : (s.heights.map fun x => (x + 1).toNat).length
      = (s'.heights.map fun x => (x + 1).toNat).length := by
    simp [hs.1, hs'.1]
  have hmap := encNat_inj _ _ hlen (digits_lt hs) (digits_lt hs') henc
  have hh : s.heights = s'.heights :=
    map_toNat_inj _ _ (fun x hx => (hs.2 x hx).1)
      (fun x hx => (hs'.2 x hx).1) hmap
  cases s; cases s'; simpa using hh

/-! ### The memoizing evaluator -/

/-- The move loop of `Solver::evaluate` (lines 157–163): evaluate each
successor with the current cache, threading the cache left to right, and
keep the moves whose successor is losing for the opponent. -/
def goMoves (ev : BoardState → BTrie → Evaluation × BTrie)
    (s : BoardState) : List Move → BTrie → List Move × BTrie
  | [], c => ([], c)
  | m :: ms, c =>
    let p := ev (s.apply_move m) c
    let q := goMoves ev s ms p.2
    (if p.1.winning then q.1 else m :: q.1, q.2)

/-- `Solver::evaluate` with its memo cache made explicit: return a cached
result unchanged; a state with no legal moves evaluates to
`{winning: false, winning_moves: []}`; otherwise run the move loop, win iff
some collected move exists, and cache the result.  The Rust recursion is
general; the embedding adds a fuel argument, and `evalMemo_spec` shows any
fuel `≥ remaining` (hence depth `≤ ROWS*COLS`) reaches the same fixpoint. -/
def Solver.evalMemo : Nat → BoardState → BTrie → Evaluation × BTrie
  | 0, _, c => (⟨false, []⟩, c)
  | fuel + 1, s, c =>
    match c.find (stateKey s) with
    | some e => (e, c)
    | none =>
      if s.legal_moves.isEmpty then
        (⟨false, []⟩, c.insert (stateKey s) ⟨false, []⟩)
      else
        let q := goMoves (Solver.evalMemo fuel) s s.legal_moves c
        (⟨!q.1.isEmpty, q.1⟩, q.2.insert (stateKey s) ⟨!q.1.isEmpty, q.1⟩)

/-- Cache invariant: every entry stored for a well-formed state is that
state's true evaluation. -/
def CacheOK (c : BTrie) : Prop :=
  ∀ s : BoardState, s.WF → ∀ e, c.find (stateKey s) = some e →
    e = Solver.evaluate s

theorem cacheOK_leaf : CacheOK BTrie.leaf := by
  intro s _ e he
  simp [BTrie.find] at he

theorem cacheOK_insert {c : BTrie} (hc : CacheOK c) {s : BoardState}
    (hs : s.WF) :
    CacheOK (c.insert (stateKey s) (Solver.evaluate s)) := by
  intro s' hs' e he
  rw [BTrie.find_insert] at he
  split at he
  · rename_i hk
    have hss : s' = s := stateKey_inj hs' hs hk
    cases he
    rw [hss]
  · exact hc s' hs' e he

theorem goMoves_spec {fuel : Nat}
    (IH : ∀ s c, s.WF → s.remaining ≤ fuel → CacheOK c →
      (Solver.evalMemo fuel s c).1 = Solver.evaluate s ∧
        CacheOK (Solver.evalMemo fuel s c).2)
    {s : BoardState} (hs : s.WF) (hrem : s.remaining ≤ fuel + 1) :
    ∀ ms c, (∀ m ∈ ms, m ∈ s.legal_moves) → CacheOK c →
      (goMoves (Solver.evalMemo fuel) s ms c).1 =
        ms.filter (fun m => !(Solver.evaluate (s.apply_move m)).winning) ∧
      CacheOK (goMoves (Solver.evalMemo fuel) s ms c).2 := by
  intro ms
  induction ms with
  | nil => intro c _ hc; exact ⟨rfl, hc⟩
  | cons m ms ihms =>
    intro c hmem hc
    have hmLegal : m ∈ s.legal_moves := hmem m (List.mem_cons_self _ _)
    have hwf' : (s.apply_move m).WF := WF_apply_move hs hmLegal
    have hrem' : (s.apply_move m).remaining ≤ fuel := by
      have := remaining_apply_move_lt hmLegal
      omega
    have h1 := IH (s.apply_move m) c hwf' hrem' hc
    have h2 := ihms (Solver.evalMemo fuel (s.apply_move m) c).2
      (fun x hx => hmem x (List.mem_cons_of_mem _ hx)) h1.2
    simp only [goMoves, List.filter_cons, h1.1]
    constructor
    · cases hw : (Solver.evaluate (s.apply_move m)).winning <;>
        simp [hw, h2.1]
    · exact h2.2

theorem evalMemo_spec : ∀ (fuel : Nat) (s : BoardState) (c : BTrie),
    s.WF → s.remaining ≤ fuel → CacheOK c →
    (Solver.evalMemo fuel s c).1 = Solver.evaluate s ∧
      CacheOK (Solver.evalMemo fuel s c).2 := by
  intro fuel
  induction fuel with
  | zero =>
    intro s c hs hrem hc
    have h0 : s.remaining = 0 := Nat.le_zero.mp hrem
    have hleg : s.legal_moves = [] := legal_moves_of_remaining_zero h0
    rw [evaluate_terminal hleg]
    exact ⟨rfl, hc⟩
  | succ fuel ih =>
    intro s c hs hrem hc
    simp only [Solver.evalMemo]
    split
    · rename_i e hfind
      exact ⟨hc s hs e hfind, hc⟩
    · rename_i hfind
      split
      · rename_i hemp
        have hleg : s.legal_moves = [] := List.isEmpty_iff.mp hemp
        have hev : Solver.evaluate s = ⟨false, []⟩ := evaluate_terminal hleg
        refine ⟨hev.symm, ?_⟩
        have := cacheOK_insert hc hs
        rwa [hev] at this
      · rename_i hemp
        have hg := goMoves_spec ih hs hrem s.legal_moves c
          (fun _ hx => hx) hc
        have hev : Solver.evaluate s =
            ⟨!(goMoves (Solver.evalMemo fuel) s s.legal_moves c).1.isEmpty,
              (goMoves (Solver.evalMemo fuel) s s.legal_moves c).1⟩ := by
          rw [evaluate_eq s, hg.1]
        refine ⟨hev.symm, ?_⟩
        have := cacheOK_insert hg.2 hs
        rwa [hev] at this


/-! ### A verified win/loss table

Evaluating the solver on the full game inside the logic is done through a
precomputed table over state *codes* (the base-6 encoding of §`encode`):
`tableConsistent` checks the backward-induction fixpoint of the table at
every monotone state by kernel computation, and `winning_eq_WCode` proves by
induction over the game DAG that the table agrees with `Solver.evaluate`. -/

/-- Raise the low `k + 1` base-6 digits of `n` to at least `d`: the code
image of `BoardState.apply_move` for the move with column `k` and digit
`d = row + 1` (see `encode_apply_move`). -/
def applyLow : Nat → Nat → Nat → Nat
  | 0, d, n => max (n % 6) d + 6 * (n / 6)
  | k + 1, d, n => max (n % 6) d + 6 * applyLow k d (n / 6)

/-- `applyLow` on digit lists: raise the first `k + 1` entries to at least
`d`. -/
def applyDigits : Nat → Nat → List Nat → List Nat
  | _, _, [] => []
  | 0, d, x :: t => max x d :: t
  | k + 1, d, x :: t => max x d :: applyDigits k d t

/-- `BoardState.legal_moves` computed from the code of a state
(`legalMovesCode_encode` proves the correspondence). -/
def legalMovesCode (n : Nat) : List Move :=
  (List.range COLS).flatMap fun c =>
    (((List.range ROWS).filter fun (r : Nat) => n / 6 ^ c % 6 ≤ r).map
      fun r => Move.mk r c).filter fun mv => mv ≠ POISON

/-- The 78 losing (P-)positions of the game, given as base-6 codes of their
height sequences (digit `c` is `heights[c] + 1`), arranged as a balanced
binary search tree of comparisons.  This table is *not trusted*: the theorem
`tableConsistent` below verifies it against the game rules by checking the
backward-induction fixpoint at every monotone state, and `winning_eq_WCode`
links it to the evaluator. -/
def isLosingCode (n : Nat) : Bool :=
  if n < 336269 then if n < 10893 then if n < 1605 then if n < 266 then if n < 87 then n == 7 || n == 64
          else n == 87 || n == 261
        else if n < 525 then n == 266 || n == 316
          else if n < 1556 then n == 525
            else n == 1556 || n == 1563
      else if n < 4679 then if n < 3160 then n == 1605 || n == 1828
          else if n < 3369 then n == 3160
            else n == 3369 || n == 3635
        else if n < 9395 then n == 4679 || n == 4924
          else if n < 9647 then n == 9395
            else n == 9647 || n == 9849
    else if n < 112240 then if n < 28511 then if n < 12448 then n == 10893 || n == 11159
          else if n < 12707 then n == 12448
            else n == 12707 || n == 23327
        else if n < 37325 then n == 28511 || n == 29548
          else if n < 93311 then n == 37325
            else n == 93311 || n == 112017
      else if n < 168004 then if n < 115085 then n == 112240 || n == 114047
          else if n < 124415 then n == 115085
            else n == 124415 || n == 130643
        else if n < 169523 then n == 168004 || n == 168221
          else if n < 177551 then n == 169523
            else n == 177551 || n == 223991
  else if n < 672364 then if n < 348407 then if n < 345297 then if n < 339035 then n == 336269 || n == 337781
          else n == 339035 || n == 340588
        else if n < 345773 then n == 345297 || n == 345556
          else if n < 346816 then n == 345773
            else n == 346816 || n == 346853
      else if n < 419903 then if n < 354844 then n == 348407 || n == 354671
          else if n < 356141 then n == 354844
            else n == 356141 || n == 363923
        else if n < 457271 then n == 419903 || n == 451007
          else if n < 504143 then n == 457271
            else n == 504143 || n == 672107
    else if n < 785375 then if n < 681221 then if n < 673661 then n == 672364 || n == 673487
          else if n < 674963 then n == 673661
            else n == 674963 || n == 681184
        else if n < 682775 then n == 681221 || n == 681443
          else if n < 690767 then n == 682775
            else n == 690767 || n == 746495
      else if n < 1009583 then if n < 1007777 then n == 785375 || n == 1007770
          else if n < 1007819 then n == 1007777
            else n == 1007819 || n == 1008071
        else if n < 1073087 then n == 1009583 || n == 1018655
          else if n < 1399679 then n == 1073087
            else n == 1399679 || n == 1679615

/-- Tabulated winning flag for the state with code `n`. -/
def WCode (n : Nat) : Bool := !(isLosingCode n)

/-! ### Code/state correspondence -/

theorem encNat_digit : ∀ l : List Nat, (∀ d ∈ l, d < 6) → ∀ c, c < l.length →
    encNat l / 6 ^ c % 6 = l.getD c 0 := by
  intro l
  induction l with
  | nil => intro _ c hc; simp at hc
  | cons d t ih =>
    intro hb c hc
    cases c with
    | zero =>
      have hd : d < 6 := hb d (List.mem_cons_self _ _)
      simp only [encNat, pow_zero, Nat.div_one, List.getD_cons_zero]
      omega
    | succ c =>
      have hstep : encNat (d :: t) / 6 ^ (c + 1) = encNat t / 6 ^ c := by
        have hd : d < 6 := hb d (List.mem_cons_self _ _)
        have h6 : (6 : Nat) ^ (c + 1) = 6 * 6 ^ c := by rw [pow_succ]; ring
        rw [h6, ← Nat.div_div_eq_div_mul]
        congr 1
        simp only [encNat]
        omega
      rw [hstep, ih (fun x hx => hb x (List.mem_cons_of_mem _ hx)) c
        (by simpa using hc)]
      rfl

theorem encode_digit {s : BoardState} (hs : s.WF) {c : Nat} (hc : c < COLS) :
    encode s / 6 ^ c % 6 = (s.heightAt c + 1).toNat := by
  unfold encode
  have hlen : c < s.heights.length := hs.1 ▸ hc
  rw [encNat_digit _ (digits_lt hs) c (by simpa using hlen)]
  rw [List.getD_eq_getElem _ _ (by simpa using hlen), List.getElem_map]
  unfold BoardState.heightAt
  rw [List.getD_eq_getElem _ _ hlen]

theorem flatMap_congr {α β : Type _} {l : List α} {f g : α → List β}
    (h : ∀ a ∈ l, f a = g a) : l.flatMap f = l.flatMap g := by
  induction l with
  | nil => rfl
  | cons a t ih =>
    simp only [List.flatMap_cons]
    rw [h a (List.mem_cons_self _ _), ih fun x hx => h x (List.mem_cons_of_mem _ hx)]

theorem legalMovesCode_encode {s : BoardState} (hs : s.WF) :
    legalMovesCode (encode s) = s.legal_moves := by
  unfold legalMovesCode BoardState.legal_moves
  apply flatMap_congr
  intro c hc
  have hcC : c < COLS := List.mem_range.mp hc
  congr 2
  apply List.filter_congr
  intro r hr
  rw [encode_digit hs hcC]
  simp only [decide_eq_decide]
  omega

theorem applyLow_encNat : ∀ (k d : Nat) (l : List Nat), (∀ x ∈ l, x < 6) →
    k < l.length →
    applyLow k d (encNat l) = encNat (applyDigits k d l) := by
  intro k
  induction k with
  | zero =>
    intro d l hb hk
    cases l with
    | nil => simp at hk
    | cons x t =>
      have hx : x < 6 := hb x (List.mem_cons_self _ _)
      simp only [applyLow, applyDigits, encNat]
      have h1 : (x + 6 * encNat t) % 6 = x := by omega
      have h2 : (x + 6 * encNat t) / 6 = encNat t := by omega
      rw [h1, h2]
  | succ k ih =>
    intro d l hb hk
    cases l with
    | nil => simp at hk
    | cons x t =>
      have hx : x < 6 := hb x (List.mem_cons_self _ _)
      simp only [applyLow, applyDigits, encNat]
      have h1 : (x + 6 * encNat t) % 6 = x := by omega
      have h2 : (x + 6 * encNat t) / 6 = encNat t := by omega
      rw [h1, h2, ih d t (fun y hy => hb y (List.mem_cons_of_mem _ hy))
        (by simpa using hk)]

theorem applyDigits_length : ∀ (k d : Nat) (l : List Nat),
    (applyDigits k d l).length = l.length := by
  intro k
  induction k with
  | zero => intro d l; cases l <;> simp [applyDigits]
  | succ k ih => intro d l; cases l <;> simp [applyDigits, ih]

theorem applyDigits_getD : ∀ (k d : Nat) (l : List Nat) (i : Nat),
    i < l.length →
    (applyDigits k d l).getD i 0 =
      if i ≤ k then max (l.getD i 0) d else l.getD i 0 := by
  intro k
  induction k with
  | zero =>
    intro d l i hi
    cases l with
    | nil => simp at hi
    | cons x t =>
      cases i with
      | zero => simp [applyDigits]
      | succ i => simp [applyDigits]
  | succ k ih =>
    intro d l i hi
    cases l with
    | nil => simp at hi
    | cons x t =>
      cases i with
      | zero => simp [applyDigits]
      | succ i =>
        simp only [applyDigits, List.getD_cons_succ]
        rw [ih d t i (by simpa using hi)]
        have : i + 1 ≤ k + 1 ↔ i ≤ k := by omega
        simp [this]

theorem toNat_max_succ {h : Int} (r : Nat) (hh : -1 ≤ h) :
    (max h (r : Int) + 1).toNat = max ((h + 1).toNat) (r + 1) := by
  rcases le_total h (r : Int) with hc | hc
  · rw [max_eq_right hc]
    omega
  · rw [max_eq_left hc]
    omega

theorem encode_apply_move {s : BoardState} {m : Move} (hs : s.WF)
    (hm : m ∈ s.legal_moves) :
    encode (s.apply_move m) = applyLow m.col (m.row + 1) (encode s) := by
  obtain ⟨hc, hr, -, -⟩ := mem_legal_moves.mp hm
  have hstep : applyLow m.col (m.row + 1) (encode s) =
      encNat (applyDigits m.col (m.row + 1)
        (s.heights.map fun h => (h + 1).toNat)) :=
    applyLow_encNat _ _ _ (digits_lt hs) (by simp [hs.1]; omega)
  rw [hstep]
  unfold encode
  congr 1
  apply List.ext_getElem
  · simp [BoardState.apply_move, applyDigits_length, hs.1]
  · intro i h1 h2
    have hiC : i < COLS := by
      simpa [BoardState.apply_move] using h1
    have hilen : i < s.heights.length := hs.1 ▸ hiC
    have hmapl : i < (s.heights.map fun h => (h + 1).toNat).length := by
      simpa using hilen
    have hL : ((s.apply_move m).heights.map fun h => (h + 1).toNat)[i] =
        ((if i ≤ m.col then max (s.heightAt i) (m.row : Int)
          else s.heightAt i) + 1).toNat := by
      simp [BoardState.apply_move, List.getElem_map, List.getElem_range]
    have hR : (applyDigits m.col (m.row + 1)
        (s.heights.map fun h => (h + 1).toNat))[i] =
        if i ≤ m.col then max ((s.heightAt i + 1).toNat) (m.row + 1)
        else (s.heightAt i + 1).toNat := by
      rw [← List.getD_eq_getElem _ 0 h2]
      rw [applyDigits_getD _ _ _ _ hmapl]
      rw [List.getD_eq_getElem _ 0 hmapl, List.getElem_map]
      unfold BoardState.heightAt
      rw [List.getD_eq_getElem _ _ hilen]
    rw [hL, hR]
    have hbound : -1 ≤ s.heightAt i := by
      have hx : s.heightAt i = s.heights[i] :=
        List.getD_eq_getElem s.heights (-1) hilen
      rw [hx]
      exact (hs.2 s.heights[i] (List.getElem_mem hilen)).1
    by_cases hcle : i ≤ m.col
    · rw [if_pos hcle, if_pos hcle]
      exact toNat_max_succ m.row hbound
    · rw [if_neg hcle, if_neg hcle]

theorem nonIncr_apply_move {s : BoardState} {m : Move} (hs : s.NonIncr)
    (hm : m ∈ s.legal_moves) : (s.apply_move m).NonIncr := by
  obtain ⟨hc, hr, hlt, -⟩ := mem_legal_moves.mp hm
  intro j hj i hij
  have hiC : i < COLS := lt_trans hij hj
  rw [heightAt_apply_move s m hj, heightAt_apply_move s m hiC]
  have hbase : s.heightAt j ≤ s.heightAt i := hs j hj i hij
  by_cases h1 : j ≤ m.col
  · rw [if_pos h1, if_pos (le_trans (le_of_lt hij) h1)]
    exact max_le_max hbase (le_refl _)
  · rw [if_neg h1]
    by_cases h2 : i ≤ m.col
    · rw [if_pos h2]
      exact le_trans hbase (le_max_left _ _)
    · rw [if_neg h2]
      exact hbase

theorem any_eq_not_isEmpty_filter {α : Type _} (l : List α) (p : α → Bool) :
    l.any p = !(l.filter p).isEmpty := by
  induction l with
  | nil => rfl
  | cons a t ih =>
    simp only [List.any_cons, List.filter_cons]
    cases hpa : p a <;> simp [hpa, ih]

/-- Backward-induction consistency of the table at one code: the tabulated
flag is true exactly when some legal move reaches a tabulated loss. -/
def consistentAt (n : Nat) : Bool :=
  WCode n == (legalMovesCode n).any fun m =>
    !WCode (applyLow m.col (m.row + 1) n)

/-- All codes of `k` non-increasing digits bounded by `dmax` (the codes of
the monotone staircase states). -/
def genCodes : Nat → Nat → List Nat
  | 0, _ => [0]
  | k + 1, dmax => (List.range (dmax + 1)).flatMap fun d =>
      (genCodes k d).map fun t => d + 6 * t

theorem mem_genCodes : ∀ (k dmax : Nat) (l : List Nat), l.length = k →
    List.Chain' (fun a b => b ≤ a) l →
    (∀ x, l.head? = some x → x ≤ dmax) →
    encNat l ∈ genCodes k dmax := by
  intro k
  induction k with
  | zero =>
    intro dmax l hlen _ _
    rw [List.length_eq_zero.mp hlen]
    simp [genCodes, encNat]
  | succ k ih =>
    intro dmax l hlen hchain hhead
    cases l with
    | nil => simp at hlen
    | cons d t =>
      simp only [genCodes, List.mem_flatMap, List.mem_range, List.mem_map]
      refine ⟨d, by
        have := hhead d rfl
        omega, encNat t, ?_, rfl⟩
      apply ih d t (by simpa using hlen)
      · exact (List.chain'_cons'.mp hchain).2
      · intro x hx
        exact (List.chain'_cons'.mp hchain).1 x hx

set_option maxRecDepth 100000 in
theorem tableCheckAux0 :
    (((genCodes 7 0).map fun t => 0 + 6 * t).all consistentAt) = true := by
  decide!

set_option maxRecDepth 100000 in
theorem tableCheckAux1 :
    (((genCodes 7 1).map fun t => 1 + 6 * t).all consistentAt) = true := by
  decide!

set_option maxRecDepth 100000 in
theorem tableCheckAux2 :
    (((genCodes 7 2).map fun t => 2 + 6 * t).all consistentAt) = true := by
  decide!

set_option maxRecDepth 100000 in
theorem tableCheckAux3 :
    (((genCodes 7 3).map fun t => 3 + 6 * t).all consistentAt) = true := by
  decide!

set_option maxRecDepth 100000 in
theorem tableCheckAux4 :
    (((genCodes 7 4).map fun t => 4 + 6 * t).all consistentAt) = true := by
  decide!

set_option maxRecDepth 100000 in
theorem tableCheckAux5 :
    (((genCodes 7 5).map fun t => 5 + 6 * t).all consistentAt) = true := by
  decide!

/-- The win/loss table satisfies the backward-induction fixpoint at every
monotone state (checked by kernel computation, in six pieces). -/
theorem tableCheck : (genCodes COLS 5).all consistentAt = true := by
  rw [show genCodes COLS 5 = (List.range 6).flatMap
      (fun d => (genCodes 7 d).map fun t => d + 6 * t) from rfl]
  rw [show List.range 6 = [0, 1, 2, 3, 4, 5] from rfl]
  simp only [List.flatMap_cons, List.flatMap_nil, List.append_nil,
    List.all_append, Bool.and_eq_true]
  exact ⟨tableCheckAux0, tableCheckAux1, tableCheckAux2, tableCheckAux3,
    tableCheckAux4, tableCheckAux5⟩

theorem consistentAt_encode {s : BoardState} (hs : s.WF) (hm : s.NonIncr) :
    WCode (encode s) =
      (legalMovesCode (encode s)).any fun m =>
        !WCode (applyLow m.col (m.row + 1) (encode s)) := by
  have hmem : encode s ∈ genCodes COLS 5 := by
    apply mem_genCodes COLS 5 _ (by simp [hs.1])
    · rw [List.chain'_iff_get]
      intro i hi
      simp only [List.length_map] at hi
      have hi1 : i < s.heights.length := by omega
      have hi2 : i + 1 < s.heights.length := by omega
      simp only [List.get_eq_getElem, List.getElem_map]
      have hmono : s.heightAt (i + 1) ≤ s.heightAt i := by
        apply hm (i + 1) (by rw [hs.1] at hi2; omega) i (by omega)
      unfold BoardState.heightAt at hmono
      rw [List.getD_eq_getElem _ _ hi1, List.getD_eq_getElem _ _ hi2] at hmono
      omega
    · intro x hx
      have hxm : x ∈ s.heights.map fun h => (h + 1).toNat :=
        List.mem_of_mem_head? hx
      have := digits_lt hs x hxm
      omega
  have hall := List.all_eq_true.mp tableCheck _ hmem
  simpa [consistentAt] using hall

theorem winning_eq_WCode : ∀ (k : Nat) (s : BoardState), s.WF → s.NonIncr →
    s.remaining ≤ k → (Solver.evaluate s).winning = WCode (encode s) := by
  intro k
  induction k with
  | zero =>
    intro s hs hm hr
    have hleg : s.legal_moves = [] :=
      legal_moves_of_remaining_zero (Nat.le_zero.mp hr)
    rw [evaluate_terminal hleg]
    have hc := consistentAt_encode hs hm
    rw [legalMovesCode_encode hs, hleg] at hc
    simpa using hc.symm
  | succ k ih =>
    intro s hs hm hr
    rw [evaluate_winning s, evaluate_winning_moves s]
    have hfc : (s.legal_moves.filter fun m =>
        !(Solver.evaluate (s.apply_move m)).winning)
        = s.legal_moves.filter fun m =>
          !WCode (applyLow m.col (m.row + 1) (encode s)) := by
      apply List.filter_congr
      intro m hmm
      have h1 := ih (s.apply_move m) (WF_apply_move hs hmm)
        (nonIncr_apply_move hm hmm)
        (by have := remaining_apply_move_lt hmm; omega)
      rw [h1, encode_apply_move hs hmm]
    rw [hfc, ← any_eq_not_isEmpty_filter]
    have hc := consistentAt_encode hs hm
    rw [legalMovesCode_encode hs] at hc
    exact hc.symm

theorem new_nonIncr : BoardState.new.NonIncr := by decide

theorem evaluate_new_eq :
    Solver.evaluate BoardState.new = ⟨true, [⟨0, 1⟩]⟩ := by
  have hwm : (Solver.evaluate BoardState.new).winning_moves = [⟨0, 1⟩] := by
    rw [evaluate_winning_moves]
    have hfc : (BoardState.new.legal_moves.filter fun m =>
        !(Solver.evaluate (BoardState.new.apply_move m)).winning)
        = BoardState.new.legal_moves.filter fun m =>
          !WCode (applyLow m.col (m.row + 1) (encode BoardState.new)) := by
      apply List.filter_congr
      intro m hmm
      rw [winning_eq_WCode (ROWS * COLS) _ (WF_apply_move WF_new hmm)
        (nonIncr_apply_move new_nonIncr hmm)
        (le_trans (le_of_lt (remaining_apply_move_lt hmm)) (remaining_le _)),
        encode_apply_move WF_new hmm]
    rw [hfc]
    decide
  have hwin : (Solver.evaluate BoardState.new).winning = true := by
    rw [evaluate_winning, hwm]
    rfl
  have hee : Solver.evaluate BoardState.new =
      ⟨(Solver.evaluate BoardState.new).winning,
        (Solver.evaluate BoardState.new).winning_moves⟩ := rfl
  rw [hee, hwin, hwm]

/-! ### The policy export pipeline

`export_policy_json` drives the enumerator, evaluates every state through
one `Solver` (so the memo cache is shared across evaluations), and inserts
each result into a key-sorted map (`BTreeMap`), keyed by a canonical
injective encoding of the height sequence.  The enumeration order (a
`HashSet` iteration) is not specified, so a run is modelled as any
permutation of the reachable states; the serialized table is the final
sorted association list. -/

theorem encode_inj {s s' : BoardState} (hs : s.WF) (hs' : s'.WF)
    (h : encode s = encode s') : s = s' := by
  unfold encode at h
  have hlen : (s.heights.map fun x => (x + 1).toNat).length
      = (s'.heights.map fun x => (x + 1).toNat).length := by
    simp [hs.1, hs'.1]
  have hmap := encNat_inj _ _ hlen (digits_lt hs) (digits_lt hs') h
  have hh : s.heights = s'.heights :=
    map_toNat_inj _ _ (fun x hx => (hs.2 x hx).1)
      (fun x hx => (hs'.2 x hx).1) hmap
  cases s; cases s'; simpa using hh

/-- `BTreeMap::insert` on the sorted association list modelling the export
table: insert by key, replacing an existing binding. -/
def insertSorted (k : Nat) (v : Evaluation) :
    List (Nat × Evaluation) → List (Nat × Evaluation)
  | [] => [(k, v)]
  | (k', v') :: t =>
    if k < k' then (k, v) :: (k', v') :: t
    else if k = k' then (k, v) :: t
    else (k', v') :: insertSorted k v t

/-- One step of the export loop: evaluate the state through the shared
solver cache and insert the result into the sorted table. -/
def exportStep (acc : List (Nat × Evaluation) × BTrie) (s : BoardState) :
    List (Nat × Evaluation) × BTrie :=
  (insertSorted (encode s) (Solver.evalMemo (ROWS * COLS) s acc.2).1 acc.1,
    (Solver.evalMemo (ROWS * COLS) s acc.2).2)

/-- The policy table produced by one run of `export_policy_json` over the
enumerated states, with one fresh `Solver`. -/
def exportTable (states : List BoardState) : List (Nat × Evaluation) :=
  (states.foldl exportStep ([], BTrie.leaf)).1

/-- The same table with the cache erased (each state evaluated by the pure
denotation). -/
def policyTable (states : List BoardState) : List (Nat × Evaluation) :=
  states.foldl (fun tbl s => insertSorted (encode s) (Solver.evaluate s) tbl) []

theorem exportFold_spec : ∀ (l : List BoardState), (∀ s ∈ l, s.WF) →
    ∀ (tbl : List (Nat × Evaluation)) (c : BTrie), CacheOK c →
    (l.foldl exportStep (tbl, c)).1 =
      l.foldl (fun tbl s => insertSorted (encode s) (Solver.evaluate s) tbl)
        tbl := by
  intro l
  induction l with
  | nil => intro _ tbl c _; rfl
  | cons s t ih =>
    intro hwf tbl c hc
    have hs : s.WF := hwf s (List.mem_cons_self _ _)
    have hspec := evalMemo_spec (ROWS * COLS) s c hs (remaining_le s) hc
    simp only [List.foldl_cons, exportStep, hspec.1]
    exact ih (fun x hx => hwf x (List.mem_cons_of_mem _ hx)) _ _ hspec.2

theorem exportTable_eq_policyTable {l : List BoardState}
    (h : ∀ s ∈ l, s.WF) : exportTable l = policyTable l :=
  exportFold_spec l h [] BTrie.leaf cacheOK_leaf

theorem insertSorted_comm (k1 k2 : Nat) (v1 v2 : Evaluation)
    (t : List (Nat × Evaluation)) (h : k1 ≠ k2) :
    insertSorted k1 v1 (insertSorted k2 v2 t) =
      insertSorted k2 v2 (insertSorted k1 v1 t) := by
  induction t with
  | nil =>
    simp only [insertSorted]
    split_ifs <;> simp_all [insertSorted] <;> omega
  | cons hd tl ih =>
    obtain ⟨k', v'⟩ := hd
    simp only [insertSorted]
    split_ifs <;>
      simp_all [insertSorted] <;>
      first
        | omega
        | (split_ifs <;> simp_all <;> omega)

theorem policyTable_perm {l1 l2 : List BoardState} (h : ∀ s ∈ l1, s.WF)
    (hp : l1.Perm l2) : policyTable l1 = policyTable l2 := by
  unfold policyTable
  refine hp.foldl_eq' ?_ []
  intro x hx y hy z
  by_cases hxy : encode x = encode y
  · have hxyeq : x = y := encode_inj (h x hx) (h y hy) hxy
    rw [hxyeq]
  · exact insertSorted_comm (encode y) (encode x) _ _ z
      (fun hk => hxy hk.symm)

/-! ### Remaining helper lemmas -/

theorem heightAt_bounds {s : BoardState} (hs : s.WF) {c : Nat}
    (hc : c < COLS) :
    -1 ≤ s.heightAt c ∧ s.heightAt c ≤ (ROWS : Int) - 1 := by
  have hlen : c < s.heights.length := hs.1 ▸ hc
  have hx : s.heightAt c = s.heights[c] :=
    List.getD_eq_getElem s.heights (-1) hlen
  rw [hx]
  exact hs.2 _ (List.getElem_mem hlen)

theorem legal_moves_sorted (s : BoardState) :
    s.legal_moves.Pairwise fun a b =>
      a.col < b.col ∨ (a.col = b.col ∧ a.row < b.row) := by
  have hcol : ∀ (c : Nat) (m : Move),
      m ∈ ((((List.range ROWS).filter fun (r : Nat) =>
        s.heightAt c < (r : Int)).map fun r => Move.mk r c).filter
          fun mv => mv ≠ POISON) → m.col = c := by
    intro c m hm
    simp only [List.mem_filter, List.mem_map] at hm
    obtain ⟨⟨r, -, rfl⟩, -⟩ := hm
    rfl
  unfold BoardState.legal_moves
  rw [List.pairwise_flatMap]
  constructor
  · intro c _
    apply List.Pairwise.filter
    rw [List.pairwise_map]
    have hbase : (((List.range ROWS).filter fun (r : Nat) =>
        s.heightAt c < (r : Int))).Pairwise (· < ·) :=
      (List.pairwise_lt_range ROWS).filter _
    exact hbase.imp fun hrr => Or.inr ⟨rfl, hrr⟩
  · apply (List.pairwise_lt_range COLS).imp ?_
    · intro c1 c2 hlt x hx y hy
      exact Or.inl (by rw [hcol c1 x hx, hcol c2 y hy]; exact hlt)

/-! ### The claims -/

/-- C1: for every reachable state `s`, `Solver.evaluate s` reports a win
exactly when some legal move leads to a successor that evaluates to a loss
for the player then to move — the normal-play backward-induction fixpoint. -/
theorem claim1_winning_fixpoint (s : BoardState) (hs : Reachable s) :
    (Solver.evaluate s).winning = true ↔
      ∃ m ∈ s.legal_moves,
        (Solver.evaluate (s.apply_move m)).winning = false :=
  evaluate_winning_iff s

theorem claim1_witness :
    Reachable BoardState.new ∧
      ((Solver.evaluate BoardState.new).winning = true ↔
        ∃ m ∈ BoardState.new.legal_moves,
          (Solver.evaluate (BoardState.new.apply_move m)).winning = false) :=
  ⟨Reachable.init, claim1_winning_fixpoint BoardState.new Reachable.init⟩

/-- C2: applying a legal move raises every column `c ≤ m.col` to
`max heights[c] m.row` and leaves every later column unchanged.  The
embedding is purely functional — `apply_move` builds a new state and cannot
mutate its argument — so the no-mutation part of the claim holds by
construction. -/
theorem claim2_apply_move_heights (s : BoardState) (m : Move)
    (hm : m ∈ s.legal_moves) :
    (∀ c ≤ m.col,
      (s.apply_move m).heightAt c = max (s.heightAt c) (m.row : Int)) ∧
    (∀ c, m.col < c → c < COLS →
      (s.apply_move m).heightAt c = s.heightAt c) := by
  obtain ⟨hc, -, -, -⟩ := mem_legal_moves.mp hm
  constructor
  · intro c hcle
    rw [heightAt_apply_move s m (lt_of_le_of_lt hcle hc), if_pos hcle]
  · intro c h1 h2
    rw [heightAt_apply_move s m h2, if_neg (by omega)]

theorem claim2_witness :
    Move.mk 0 1 ∈ BoardState.new.legal_moves ∧
      ((∀ c ≤ (Move.mk 0 1).col,
        (BoardState.new.apply_move (Move.mk 0 1)).heightAt c =
          max (BoardState.new.heightAt c) ((Move.mk 0 1).row : Int)) ∧
      (∀ c, (Move.mk 0 1).col < c → c < COLS →
        (BoardState.new.apply_move (Move.mk 0 1)).heightAt c =
          BoardState.new.heightAt c)) :=
  ⟨by decide, claim2_apply_move_heights BoardState.new (Move.mk 0 1) (by decide)⟩

/-- C3: `legal_moves` is exactly the column-major, ascending-row listing of
the coordinates `(r, c)` with `heights[c] < r < ROWS`, the poison square
excluded: membership is characterized by those bounds, the emitted list is
strictly increasing in `(col, row)` lexicographic order, and the poison
coordinate never appears. -/
theorem claim3_legal_moves_exact (s : BoardState) :
    (∀ m : Move, m ∈ s.legal_moves ↔
      (m.col < COLS ∧ m.row < ROWS ∧ s.heightAt m.col < (m.row : Int) ∧
        m ≠ POISON)) ∧
    (s.legal_moves.Pairwise fun a b =>
      a.col < b.col ∨ (a.col = b.col ∧ a.row < b.row)) ∧
    POISON ∉ s.legal_moves :=
  ⟨fun _ => mem_legal_moves, legal_moves_sorted s,
    fun hp => (mem_legal_moves.mp hp).2.2.2 rfl⟩

/-- C4: for every reachable state, `winning_moves` is exactly the
subsequence of `legal_moves` (in generation order) whose successors
evaluate to a loss; it is empty iff the state is losing, and a terminal
state evaluates to `{winning: false, winning_moves: []}`. -/
theorem claim4_winning_moves (s : BoardState) (hs : Reachable s) :
    ((Solver.evaluate s).winning_moves =
      s.legal_moves.filter fun m =>
        !(Solver.evaluate (s.apply_move m)).winning) ∧
    ((Solver.evaluate s).winning_moves = [] ↔
      (Solver.evaluate s).winning = false) ∧
    (s.legal_moves = [] → Solver.evaluate s = ⟨false, []⟩) := by
  refine ⟨evaluate_winning_moves s, ?_, fun h => evaluate_terminal h⟩
  rw [evaluate_winning s]
  cases hwm : (Solver.evaluate s).winning_moves <;> simp

theorem claim4_witness :
    Reachable BoardState.new ∧
      (((Solver.evaluate BoardState.new).winning_moves =
        BoardState.new.legal_moves.filter fun m =>
          !(Solver.evaluate (BoardState.new.apply_move m)).winning) ∧
      ((Solver.evaluate BoardState.new).winning_moves = [] ↔
        (Solver.evaluate BoardState.new).winning = false) ∧
      (BoardState.new.legal_moves = [] →
        Solver.evaluate BoardState.new = ⟨false, []⟩)) :=
  ⟨Reachable.init, claim4_winning_moves BoardState.new Reachable.init⟩

/-- C5: the initial board (all heights `-1`) evaluates to a win with
exactly one winning move, the zero-indexed `(0, 1)` — one-indexed `(1, 2)`. -/
theorem claim5_initial_evaluation :
    Solver.evaluate BoardState.new = ⟨true, [⟨0, 1⟩]⟩ ∧
      (Move.mk 0 1).to_one_indexed = (1, 2) :=
  ⟨evaluate_new_eq, rfl⟩

/-- C6: applying any legal move to a state with non-increasing heights
yields a state with non-increasing heights — the staircase invariant is
preserved. -/
theorem claim6_staircase_preserved (s : BoardState) (m : Move)
    (hs : s.NonIncr) (hm : m ∈ s.legal_moves) :
    (s.apply_move m).NonIncr :=
  nonIncr_apply_move hs hm

theorem claim6_witness :
    BoardState.new.NonIncr ∧ Move.mk 0 1 ∈ BoardState.new.legal_moves ∧
      (BoardState.new.apply_move (Move.mk 0 1)).NonIncr :=
  ⟨by decide, by decide,
    claim6_staircase_preserved BoardState.new (Move.mk 0 1) (by decide)
      (by decide)⟩

/-- C7 as stated is false at the fully-eaten board: every height `ROWS-1`
(poison eaten) satisfies the claim's well-formedness (heights in range,
non-increasing) and the state is terminal, yet its last column height is
`ROWS-1`, not `ROWS-2`. -/
theorem claim7_counterexample :
    (BoardState.mk [4, 4, 4, 4, 4, 4, 4, 4]).WF ∧
    (BoardState.mk [4, 4, 4, 4, 4, 4, 4, 4]).NonIncr ∧
    (BoardState.mk [4, 4, 4, 4, 4, 4, 4, 4]).is_terminal = true ∧
    ¬((BoardState.mk [4, 4, 4, 4, 4, 4, 4, 4]).heightAt (COLS - 1) =
        (ROWS : Int) - 2) := by
  decide

/-- C7 (amended): for a well-formed staircase state in which the poison
cell is still uneaten (`heights[COLS-1] ≤ ROWS-2`), `is_terminal` holds iff
all cells except the poison cell have been eaten: every column before the
last has height `ROWS-1` and the last column has height `ROWS-2`. -/
theorem claim7_terminal_iff (s : BoardState) (hwf : s.WF)
    (hmono : s.NonIncr)
    (hpoison : s.heightAt (COLS - 1) ≤ (ROWS : Int) - 2) :
    s.is_terminal = true ↔
      ((∀ c < COLS - 1, s.heightAt c = (ROWS : Int) - 1) ∧
        s.heightAt (COLS - 1) = (ROWS : Int) - 2) := by
  have hR : ROWS = 5 := rfl
  have hC : COLS = 8 := rfl
  unfold BoardState.is_terminal
  rw [List.isEmpty_iff]
  constructor
  · intro hleg
    have hno : ∀ m : Move, m ∉ s.legal_moves := fun m hm => by
      rw [hleg] at hm
      exact (List.not_mem_nil m) hm
    constructor
    · intro c hcC
      have hb := heightAt_bounds hwf (show c < COLS by omega)
      by_contra hne
      apply hno (Move.mk (ROWS - 1) c)
      apply mem_legal_moves.mpr
      refine ⟨by dsimp only; omega, by dsimp only; omega,
        by dsimp only; omega, ?_⟩
      intro hpe
      rw [show POISON = Move.mk (ROWS - 1) (COLS - 1) from rfl] at hpe
      injection hpe with h1 h2
      omega
    · have hb := heightAt_bounds hwf (show COLS - 1 < COLS by omega)
      by_contra hne
      apply hno (Move.mk (ROWS - 2) (COLS - 1))
      apply mem_legal_moves.mpr
      refine ⟨by dsimp only; omega, by dsimp only; omega,
        by dsimp only; omega, ?_⟩
      intro hpe
      rw [show POISON = Move.mk (ROWS - 1) (COLS - 1) from rfl] at hpe
      injection hpe with h1 h2
      omega
  · rintro ⟨hfull, hlast⟩
    by_contra hne
    obtain ⟨m, hm⟩ := List.exists_mem_of_ne_nil _ hne
    obtain ⟨hcC, hrR, hlt, hp⟩ := mem_legal_moves.mp hm
    by_cases hcc : m.col < COLS - 1
    · have hfc := hfull m.col hcc
      omega
    · have hcol : m.col = COLS - 1 := by omega
      rw [hcol, hlast] at hlt
      apply hp
      cases m with
      | mk r c =>
        have h1 : r = ROWS - 1 := by
          have hr' : r < ROWS := hrR
          have hl' : (ROWS : Int) - 2 < (r : Int) := hlt
          omega
        have h2 : c = COLS - 1 := hcol
        rw [h1, h2]
        rfl

theorem claim7_witness :
    (BoardState.mk [4, 4, 4, 4, 4, 4, 4, 3]).WF ∧
    (BoardState.mk [4, 4, 4, 4, 4, 4, 4, 3]).NonIncr ∧
    (BoardState.mk [4, 4, 4, 4, 4, 4, 4, 3]).heightAt (COLS - 1) ≤
      (ROWS : Int) - 2 ∧
    ((BoardState.mk [4, 4, 4, 4, 4, 4, 4, 3]).is_terminal = true ↔
      ((∀ c < COLS - 1,
        (BoardState.mk [4, 4, 4, 4, 4, 4, 4, 3]).heightAt c =
          (ROWS : Int) - 1) ∧
        (BoardState.mk [4, 4, 4, 4, 4, 4, 4, 3]).heightAt (COLS - 1) =
          (ROWS : Int) - 2)) :=
  ⟨by decide, by decide, by decide,
    claim7_terminal_iff _ (by decide) (by decide) (by decide)⟩

/-- C8: evaluation terminates on well-formed states: every legal move
strictly decreases the number of uneaten cells, a state has at most
`ROWS*COLS = 40` of them, and the explicit-cache evaluator already reaches
the total evaluator's value with fuel `ROWS*COLS` — at most 39 nested
recursive descents below the root call, since every successor has at most
39 uneaten cells. -/
theorem claim8_termination (s : BoardState) (hwf : s.WF) :
    (∀ m ∈ s.legal_moves, (s.apply_move m).remaining < s.remaining) ∧
    s.remaining ≤ ROWS * COLS ∧
    (Solver.evalMemo (ROWS * COLS) s BTrie.leaf).1 = Solver.evaluate s :=
  ⟨fun _ hm => remaining_apply_move_lt hm, remaining_le s,
    (evalMemo_spec (ROWS * COLS) s BTrie.leaf hwf (remaining_le s)
      cacheOK_leaf).1⟩

theorem claim8_witness :
    (BoardState.mk [4, 4, 4, 4, 4, 4, 4, 3]).WF ∧
      ((∀ m ∈ (BoardState.mk [4, 4, 4, 4, 4, 4, 4, 3]).legal_moves,
        ((BoardState.mk [4, 4, 4, 4, 4, 4, 4, 3]).apply_move m).remaining <
          (BoardState.mk [4, 4, 4, 4, 4, 4, 4, 3]).remaining) ∧
      (BoardState.mk [4, 4, 4, 4, 4, 4, 4, 3]).remaining ≤ ROWS * COLS ∧
      (Solver.evalMemo (ROWS * COLS) (BoardState.mk [4, 4, 4, 4, 4, 4, 4, 3])
        BTrie.leaf).1 =
        Solver.evaluate (BoardState.mk [4, 4, 4, 4, 4, 4, 4, 3])) :=
  ⟨by decide, claim8_termination _ (by decide)⟩

/-- C9: the export pipeline is deterministic — evaluating the enumerated
reachable states through one fresh solver and collecting the results into
the key-sorted table yields the same table on every run, regardless of the
enumeration (hash-iteration) order, modelled as any permutation of the
state list. -/
theorem claim9_export_deterministic (l1 l2 : List BoardState)
    (h : ∀ s ∈ l1, Reachable s) (hp : l1.Perm l2) :
    exportTable l1 = exportTable l2 := by
  have hw1 : ∀ s ∈ l1, s.WF := fun s hs => reachable_WF (h s hs)
  have hw2 : ∀ s ∈ l2, s.WF := fun s hs => hw1 s (hp.mem_iff.mpr hs)
  rw [exportTable_eq_policyTable hw1, exportTable_eq_policyTable hw2]
  exact policyTable_perm hw1 hp

theorem claim9_witness :
    (∀ s ∈ [BoardState.new, BoardState.new.apply_move (Move.mk 0 1)],
      Reachable s) ∧
    ([BoardState.new, BoardState.new.apply_move (Move.mk 0 1)].Perm
      [BoardState.new.apply_move (Move.mk 0 1), BoardState.new]) ∧
    exportTable [BoardState.new, BoardState.new.apply_move (Move.mk 0 1)] =
      exportTable [BoardState.new.apply_move (Move.mk 0 1), BoardState.new] := by
  have hr : ∀ s ∈ [BoardState.new, BoardState.new.apply_move (Move.mk 0 1)],
      Reachable s := by
    intro s hs
    simp only [List.mem_cons, List.not_mem_nil, or_false] at hs
    rcases hs with rfl | rfl
    · exact Reachable.init
    · exact Reachable.step Reachable.init (by decide)
  exact ⟨hr, by decide, claim9_export_deterministic _ _ hr (by decide)⟩

/-- C10: in every state reachable from the fresh board the poison column's
height stays at most `ROWS-2` — the poison cell is never eaten, because no
legal move targets it and moves in earlier columns do not touch it. -/
theorem claim10_poison_uneaten (s : BoardState) (hs : Reachable s) :
    s.heightAt (COLS - 1) ≤ (ROWS : Int) - 2 := by
  have hR : ROWS = 5 := rfl
  have hC : COLS = 8 := rfl
  induction hs with
  | init => decide
  | @step s' m' hr hm ih =>
    rw [heightAt_apply_move s' m' (by omega)]
    obtain ⟨hc, hrow, -, hp⟩ := mem_legal_moves.mp hm
    by_cases hcol : COLS - 1 ≤ m'.col
    · rw [if_pos hcol]
      have hcol7 : m'.col = COLS - 1 := by omega
      have hrow_ne : m'.row ≠ ROWS - 1 := by
        intro hre
        apply hp
        cases m' with
        | mk r c =>
          have h1 : r = ROWS - 1 := hre
          have h2 : c = COLS - 1 := hcol7
          rw [h1, h2]
          rfl
      have hcast : (m'.row : Int) ≤ (ROWS : Int) - 2 := by omega
      exact max_le ih hcast
    · rw [if_neg hcol]
      exact ih

theorem claim10_witness :
    Reachable BoardState.new ∧
      BoardState.new.heightAt (COLS - 1) ≤ (ROWS : Int) - 2 :=
  ⟨Reachable.init, claim10_poison_uneaten BoardState.new Reachable.init⟩
